import Mathlib

/-!
Verification of the ALN-Ecosystem content-pipeline scripts.

This file embeds the pure computational parts of
`scripts/sync_notion_to_tokens.py` (timestamp extraction, greedy word
wrap, measure-and-fit font selection, name-highlight segmentation) and
`analyze_story_gaps.py` (gap analysis), together with a control-flow
model of the paginated fetch in `fetch_all_memory_tokens` / `main`,
and proves or refutes the specification claims about them.

Python strings are modelled as `List Char` (`Str` below); `draw.textbbox`
width measurement is an abstract parameter `wd : Str → Nat` since the
pixel metrics of the loaded font are an external input to the algorithm.
-/

set_option autoImplicit false

/-- Strings of the scripts, modelled as lists of characters. -/
abbrev Str := List Char

/-- Whitespace in the sense of Python `str.split()` / `str.strip()` / regex `\s`
(space, tab, newline, carriage return, vertical tab, form feed). -/
def pyIsSpace (c : Char) : Bool :=
  c = ' ' || c = '\t' || c = '\n' || c = '\r' || c = Char.ofNat 11 || c = Char.ofNat 12

/-- Python `str.strip()`: drop whitespace from both ends. -/
def pyStrip (s : Str) : Str :=
  ((s.dropWhile pyIsSpace).reverse.dropWhile pyIsSpace).reverse

/-- Accumulator loop for Python `str.split()` (split on whitespace runs,
dropping empty pieces). `cur` holds the current word reversed. -/
def pySplitAux : Str → Str → List Str
  | [], cur => if cur = [] then [] else [cur.reverse]
  | c :: rest, cur =>
    if pyIsSpace c then
      if cur = [] then pySplitAux rest [] else cur.reverse :: pySplitAux rest []
    else
      pySplitAux rest (c :: cur)

/-- Python `text.split()`: split on whitespace, dropping empty pieces. -/
def pySplit (s : Str) : List Str := pySplitAux s []

/-- Python `' '.join(pieces)`. -/
def joinWords : List Str → Str
  | [] => []
  | [w] => w
  | w :: v :: ws => w ++ ' ' :: joinWords (v :: ws)

/-- Accumulator loop for Python `s.split(' ')` (split at every space,
keeping empty pieces). `cur` holds the current piece reversed. -/
def splitSpAux : Str → Str → List Str
  | [], cur => [cur.reverse]
  | c :: rest, cur =>
    if c = ' ' then cur.reverse :: splitSpAux rest []
    else splitSpAux rest (c :: cur)

/-- Python `s.split(' ')`. -/
def splitSp (s : Str) : List Str := splitSpAux s []

/-- Loop body of `wrap_text_with_font` (sync_notion_to_tokens.py lines
147-159): greedy accumulation of words onto the current line, starting a
new line when the measured width of the extended line would exceed
`maxWidth` and the current line is nonempty. `wd` is the width measure
`draw.textbbox(...)` of the font in use. -/
def wrapLoop (wd : Str → Nat) (maxWidth : Nat) :
    List Str → List Str → Str → List Str
  | [], lines, currentLine =>
    if currentLine = [] then lines else lines ++ [currentLine]
  | w :: ws, lines, currentLine =>
    let testLine := currentLine ++ (if currentLine = [] then [] else [' ']) ++ w
    if wd testLine > maxWidth ∧ currentLine ≠ [] then
      wrapLoop wd maxWidth ws (lines ++ [currentLine]) w
    else
      wrapLoop wd maxWidth ws lines testLine

/-- Embedding of `wrap_text_with_font(text, max_width, font, draw)`
(sync_notion_to_tokens.py lines 134-161): normalize whitespace, split on
single spaces, then greedily wrap. -/
def wrap_text_with_font (wd : Str → Nat) (maxWidth : Nat) (text : Str) : List Str :=
  let normalized := joinWords (pySplit text)
  let words := splitSp normalized
  wrapLoop wd maxWidth words [] []

/-! ### Measure-and-fit body layout (generate_neurai_display, lines 300-336) -/

/-- Display width (`WIDTH = 240` in sync_notion_to_tokens.py). -/
def WIDTH : Nat := 240

/-- Display height (`HEIGHT = 320`). -/
def HEIGHT : Nat := 320

/-- Font size candidates `FONT_SIZES` (line 62): `(font_size, line_height)`
pairs tried largest first. -/
def FONT_SIZES : List (Nat × Nat) :=
  [(18, 24), (17, 23), (16, 21), (15, 20), (14, 19), (13, 18), (12, 16), (11, 15), (10, 14)]

/-- Body text left/right padding (line 301). -/
def padding : Nat := 15

/-- Maximum body line width `max_width = WIDTH - (padding * 2)` (line 302). -/
def bodyMaxWidth : Nat := WIDTH - padding * 2

/-- Body start y coordinate `start_y = 62` (line 303). -/
def startY : Nat := 62

/-- Bottom reserve for branding `bottom_reserve = 18` (line 304). -/
def bottomReserve : Nat := 18

/-- The helper `max_lines_for_height(line_height)` (lines 307-308):
`int((HEIGHT - start_y - bottom_reserve) / line_height)`. All quantities
are positive, so float truncation is natural-number division. -/
def maxLinesForHeight (lineHeight : Nat) : Nat :=
  (HEIGHT - startY - bottomReserve) / lineHeight

/-- The `for font_size, line_height in FONT_SIZES` selection loop
(lines 315-325), breaking at the first candidate whose wrapped line count
fits. `wd fs` is the width measure of `load_font(fs)`. -/
def selectLoop (wd : Nat → Str → Nat) (body : Str) :
    List (Nat × Nat) → Option (Nat × Nat × List Str)
  | [] => none
  | (fs, lh) :: rest =>
    let lines := wrap_text_with_font (wd fs) bodyMaxWidth body
    if lines.length ≤ maxLinesForHeight lh then some (fs, lh, lines)
    else selectLoop wd body rest

/-- Outcome of the body layout: chosen font size, line height, the lines
actually rendered, and whether the truncation marker is drawn. -/
structure BodyLayout where
  fontSize : Nat
  lineHeight : Nat
  displayLines : List Str
  needsTruncation : Bool
  deriving Repr, DecidableEq

/-- Body-layout part of `generate_neurai_display` (lines 310-336): run the
selection loop; on failure fall back to the smallest font, truncate the
wrapped lines to the capacity and record whether truncation happened
(`needs_truncation` drives drawing the `[...]` marker, lines 353-356). -/
def generateBody (wd : Nat → Str → Nat) (body : Str) : BodyLayout :=
  match selectLoop wd body FONT_SIZES with
  | some (fs, lh, lines) => ⟨fs, lh, lines, false⟩
  | none =>
    let lines := wrap_text_with_font (wd 10) bodyMaxWidth body
    let maxLines := maxLinesForHeight 14
    ⟨10, 14, lines.take maxLines, decide (lines.length > maxLines)⟩

/-- Modelled from the spec: the selection policy in the spec's words
("iterate candidates from largest to smallest; the first candidate whose
wrapped line count ≤ the vertical capacity is chosen. If no candidate
fits, the smallest candidate is used and the output is truncated to the
maximum line count with a truncation marker appended"), for comparison
with `generateBody`. -/
def measureFitSpec (wd : Nat → Str → Nat) (body : Str) : BodyLayout :=
  match FONT_SIZES.find?
      (fun p => (wrap_text_with_font (wd p.1) bodyMaxWidth body).length ≤ maxLinesForHeight p.2) with
  | some (fs, lh) => ⟨fs, lh, wrap_text_with_font (wd fs) bodyMaxWidth body, false⟩
  | none =>
    ⟨10, 14, (wrap_text_with_font (wd 10) bodyMaxWidth body).take (maxLinesForHeight 14), true⟩

/-- Monospace width family used for concrete instances: character advance
width of roughly 0.6 times the font size, as for the DejaVu Sans Mono
fonts the script loads (6 px at size 10, 11 px at size 18). -/
def mwd (fs : Nat) (s : Str) : Nat := ((3 * fs + 2) / 5) * s.length

/-- Concrete body text used to refute the greedy-maximal claim:
17 words of 15 characters each (271 characters in total). -/
def c3text : Str := joinWords (List.replicate 17 (List.replicate 15 'a'))

/-! ### Timestamp extraction (extract_timestamp, lines 92-131, and the
regexes TIME_PATTERN / DATE_PATTERN / TOKEN_PREFIX_PATTERN, lines 70-74) -/

/-- Classification of an extracted timestamp (`timestamp_type`). -/
inductive TsType where
  | time
  | date
  | unknown
  deriving Repr, DecidableEq

/-- The dash alternatives `[-–]` of the regexes (hyphen or en dash). -/
def isDash (c : Char) : Bool := c = '-' || c = '–'

/-- Matcher for `TOKEN_PREFIX_PATTERN = ^[A-Za-z]{2,4}\d{2,4}\s*[-–]\s*`
at the start of `s`; returns the text after the match. The quantifiers
are deterministic here: a run of 5 or more letters (resp. digits) makes
every backtracking choice fail, because the character after a shortened
take is still a letter (resp. digit) and cannot match the next regex
atom. `re.IGNORECASE` is redundant for this character class. -/
def tokenCodeMatch (s : Str) : Option Str :=
  let letters := s.takeWhile Char.isAlpha
  if 2 ≤ letters.length ∧ letters.length ≤ 4 then
    let s1 := s.drop letters.length
    let digits := s1.takeWhile Char.isDigit
    if 2 ≤ digits.length ∧ digits.length ≤ 4 then
      match (s1.drop digits.length).dropWhile pyIsSpace with
      | c :: rest => if isDash c then some (rest.dropWhile pyIsSpace) else none
      | [] => none
    else none
  else none

/-- The hour atom `(?:\d{1,2}|\?\?)` of TIME_PATTERN followed by the `:`
literal: a run of one or two digits (a longer digit run fails every
alternative) or exactly `??`, then a colon. Returns the hour characters
and the rest after the colon. -/
def hourMatch (s : Str) : Option (Str × Str) :=
  let ds := s.takeWhile Char.isDigit
  if 1 ≤ ds.length ∧ ds.length ≤ 2 then
    match s.drop ds.length with
    | c :: rest => if c = ':' then some (ds, rest) else none
    | [] => none
  else
    match s with
    | q1 :: q2 :: c :: rest =>
      if q1 = '?' ∧ q2 = '?' ∧ c = ':' then some (['?', '?'], rest) else none
    | _ => none

/-- The minutes atom `(?:\d{2}|\?\?)` of TIME_PATTERN: exactly two digits
or exactly two question marks. -/
def minutesMatch (s : Str) : Option (Str × Str) :=
  match s with
  | a :: b :: rest =>
    if a.isDigit ∧ b.isDigit then some ([a, b], rest)
    else if a = '?' ∧ b = '?' then some (['?', '?'], rest)
    else none
  | _ => none

/-- The optional meridiem atom `(?:am|pm|AM|PM)?`: consume one of the four
exact two-letter alternatives if present. -/
def meridiemMatch (s : Str) : Str × Str :=
  match s with
  | a :: b :: rest =>
    if (a = 'a' ∧ b = 'm') ∨ (a = 'p' ∧ b = 'm') ∨ (a = 'A' ∧ b = 'M') ∨ (a = 'P' ∧ b = 'M') then
      ([a, b], rest)
    else ([], s)
  | _ => ([], s)

/-- The trailing `\s*[-–]?\s*` of both timestamp regexes: whitespace, an
optional dash, whitespace. Always succeeds. -/
def dashTail (s : Str) : Str :=
  match s.dropWhile pyIsSpace with
  | c :: rest => if isDash c then rest.dropWhile pyIsSpace else s.dropWhile pyIsSpace
  | [] => []

/-- Matcher for
`TIME_PATTERN = ^((?:\d{1,2}|\?\?):(?:\d{2}|\?\?)\s*(?:am|pm|AM|PM)?)\s*[-–]?\s*`
at the start of `s`; returns (group 1, rest after the whole match). Note
group 1 contains the inner `\s*` run when no meridiem follows it. -/
def timeMatch (s : Str) : Option (Str × Str) :=
  match hourMatch s with
  | none => none
  | some (hh, afterColon) =>
    match minutesMatch afterColon with
    | none => none
    | some (mm, afterMin) =>
      let ws1 := afterMin.takeWhile pyIsSpace
      let mer := (meridiemMatch (afterMin.drop ws1.length)).1
      let afterMer := (meridiemMatch (afterMin.drop ws1.length)).2
      some (hh ++ ':' :: mm ++ ws1 ++ mer, dashTail afterMer)

/-- A day or month atom `(?:\d{1,2}|\?\?)` of DATE_PATTERN followed by the
`/` literal. -/
def dayMatch (s : Str) : Option (Str × Str) :=
  let ds := s.takeWhile Char.isDigit
  if 1 ≤ ds.length ∧ ds.length ≤ 2 then
    match s.drop ds.length with
    | c :: rest => if c = '/' then some (ds, rest) else none
    | [] => none
  else
    match s with
    | q1 :: q2 :: c :: rest =>
      if q1 = '?' ∧ q2 = '?' ∧ c = '/' then some (['?', '?'], rest) else none
    | _ => none

/-- The year atom `(?:\d{2,4}|\?\?)` of DATE_PATTERN: since everything
after it is optional, the greedy take of at most four digits from a run
of at least two always succeeds; otherwise exactly `??`. -/
def yearMatch (s : Str) : Option (Str × Str) :=
  let ds := s.takeWhile Char.isDigit
  if 2 ≤ ds.length then
    let y := ds.take 4
    some (y, s.drop y.length)
  else
    match s with
    | q1 :: q2 :: rest =>
      if q1 = '?' ∧ q2 = '?' then some (['?', '?'], rest) else none
    | _ => none

/-- Matcher for
`DATE_PATTERN = ^((?:\d{1,2}|\?\?)/(?:\d{1,2}|\?\?)/(?:\d{2,4}|\?\?))\s*[-–]?\s*`
at the start of `s`; returns (group 1, rest after the whole match). -/
def dateMatch (s : Str) : Option (Str × Str) :=
  match dayMatch s with
  | none => none
  | some (m, afterM) =>
    match dayMatch afterM with
    | none => none
    | some (d, afterD) =>
      match yearMatch afterD with
      | none => none
      | some (y, afterY) => some (m ++ '/' :: d ++ '/' :: y, dashTail afterY)

/-- Python `'??' in ts`: the string contains two consecutive question
marks. -/
def hasQQ : Str → Bool
  | '?' :: '?' :: _ => true
  | _ :: rest => hasQQ rest
  | [] => false

/-- The first step of `extract_timestamp` (lines 109-112): strip the token
code if the token-code pattern matches, otherwise keep the text. -/
def stripTokenCode (s : Str) : Str :=
  match tokenCodeMatch s with
  | some rest => rest
  | none => s

/-- Embedding of `extract_timestamp(text)` (lines 92-131): strip the token
code if present, try the time pattern, then the date pattern, classify
`??` matches as unknown, and on no match return the prefix-stripped text
with no timestamp. -/
def extract_timestamp (text : Str) : Option Str × Option TsType × Str :=
  let workingText := stripTokenCode text
  match timeMatch workingText with
  | some (g, rest) =>
    let ts := pyStrip g
    (some ts, some (if hasQQ ts then TsType.unknown else TsType.time), pyStrip rest)
  | none =>
    match dateMatch workingText with
    | some (g, rest) =>
      let ts := pyStrip g
      (some ts, some (if hasQQ ts then TsType.unknown else TsType.date), pyStrip rest)
    | none => (none, none, workingText)

/-- Declarative reading of the spec's item-code prefix ("2-4 letters +
2-4 digits" followed by a dash): a successful strip decomposes the input
into the letters, the digits, optional whitespace, one dash, optional
whitespace and the returned remainder. -/
def tokenCodeShape (s rest : Str) : Prop :=
  ∃ letters digits ws1 d ws2,
    s = letters ++ digits ++ ws1 ++ d :: (ws2 ++ rest) ∧
    2 ≤ letters.length ∧ letters.length ≤ 4 ∧ (∀ c ∈ letters, Char.isAlpha c = true) ∧
    2 ≤ digits.length ∧ digits.length ≤ 4 ∧ (∀ c ∈ digits, Char.isDigit c = true) ∧
    (∀ c ∈ ws1, pyIsSpace c = true) ∧ isDash d = true ∧
    (∀ c ∈ ws2, pyIsSpace c = true)

/-- Declarative reading of the spec's clock-time pattern `H:MM[am|pm]`
with `??` placeholders: the matched group is an hour part (one or two
digits, or `??`), a colon, a minutes part (two digits or `??`), optional
whitespace and an optional meridiem, and the input is the group followed
by the consumed separator tail and the remainder. -/
def timeGroupShape (s g rest : Str) : Prop :=
  ∃ hh mm ws1 mer tail,
    g = hh ++ ':' :: (mm ++ ws1 ++ mer) ∧
    s = g ++ tail ++ rest ∧
    (hh = ['?', '?'] ∨ (1 ≤ hh.length ∧ hh.length ≤ 2 ∧ ∀ c ∈ hh, Char.isDigit c = true)) ∧
    (mm = ['?', '?'] ∨ (mm.length = 2 ∧ ∀ c ∈ mm, Char.isDigit c = true)) ∧
    (∀ c ∈ ws1, pyIsSpace c = true) ∧
    (mer = [] ∨ mer = ['a', 'm'] ∨ mer = ['p', 'm'] ∨ mer = ['A', 'M'] ∨ mer = ['P', 'M'])

/-- Declarative reading of the spec's date pattern `M/D/Y` with `??`
placeholders: the matched group is month and day parts (one or two
digits, or `??`) and a year part (two to four digits, or `??`) separated
by slashes, and the input is the group followed by the consumed separator
tail and the remainder. -/
def dateGroupShape (s g rest : Str) : Prop :=
  ∃ m d y tail,
    g = m ++ '/' :: (d ++ '/' :: y) ∧
    s = g ++ tail ++ rest ∧
    (m = ['?', '?'] ∨ (1 ≤ m.length ∧ m.length ≤ 2 ∧ ∀ c ∈ m, Char.isDigit c = true)) ∧
    (d = ['?', '?'] ∨ (1 ≤ d.length ∧ d.length ≤ 2 ∧ ∀ c ∈ d, Char.isDigit c = true)) ∧
    (y = ['?', '?'] ∨ (2 ≤ y.length ∧ y.length ≤ 4 ∧ ∀ c ∈ y, Char.isDigit c = true))

/-! ### Name-highlight segmentation (segment_line_for_highlighting, lines
164-190, and CHARACTER_NAME_PATTERN, line 65) -/

/-- The apostrophe character of the possessive alternative. -/
def apost : Char := Char.ofNat 39

/-- Word characters for the regex `\b` boundary (`[A-Za-z0-9_]`; the
script only ever feeds ASCII art text to this pattern). -/
def isWordChar (c : Char) : Bool := c.isAlphanum || c = '_'

/-- Word boundary in front of `s` when the previous character is a word
character: `s` must be empty or start with a non-word character. -/
def wordBoundary : Str → Bool
  | [] => true
  | c :: _ => !isWordChar c

/-- Word boundary before the match: the previous character (none at line
start) must not be a word character, the match itself starts with an
uppercase letter. -/
def prevBoundary : Option Char → Bool
  | none => true
  | some c => !isWordChar c

/-- Single-position matcher for
`CHARACTER_NAME_PATTERN = \b[A-Z]{2,}(?:'[sS])?\b` at the current
position of `l`, with `prev` the character before it. The uppercase run
is maximal (a shortened greedy take leaves an uppercase letter on both
sides of the required boundary, so backtracking it can never succeed);
if the possessive tail is present but not followed by a boundary, the
engine falls back to the bare run, whose trailing apostrophe is itself a
boundary. Returns (matched characters, rest). Here `possessiveOk` tests
the possessive alternative `(?:'[sS])?\b` at the head of the text after
the uppercase run. -/
def possessiveOk : Str → Bool
  | c :: s :: rest2 => c = apost && (s = 's' || s = 'S') && wordBoundary rest2
  | _ => false

def nameTokenMatch (prev : Option Char) (l : Str) : Option (Str × Str) :=
  if prevBoundary prev ∧ 2 ≤ (l.takeWhile Char.isUpper).length then
    if possessiveOk (l.dropWhile Char.isUpper) then
      some (l.takeWhile Char.isUpper ++ (l.dropWhile Char.isUpper).take 2,
        (l.dropWhile Char.isUpper).drop 2)
    else if wordBoundary (l.dropWhile Char.isUpper) then
      some (l.takeWhile Char.isUpper, l.dropWhile Char.isUpper)
    else none
  else none

/-- The scanning loop of `re.finditer` combined with the segment-building
loop of `segment_line_for_highlighting` (lines 171-184): `pending` is the
text accumulated since the previous match (`line[last_end:match.start()]`),
a match is emitted flagged, and scanning resumes after the match with the
match's last character as the new previous character. `fuel` only bounds
the recursion (each step strictly shortens the text, so any
`fuel ≥ l.length` gives the scan's result); it keeps the definition
structurally recursive and hence computable by kernel reduction. -/
def segLoop (fuel : Nat) (prev : Option Char) (pending : Str) (l : Str) :
    List (Str × Bool) :=
  match fuel, l with
  | _, [] => if pending = [] then [] else [(pending, false)]
  | 0, _ :: _ => if pending = [] then [] else [(pending, false)]
  | fuel + 1, c :: rest =>
    match nameTokenMatch prev (c :: rest) with
    | some (m, r) =>
      (if pending = [] then [] else [(pending, false)]) ++ (m, true) :: segLoop fuel m.getLast? [] r
    | none => segLoop fuel (some c) (pending ++ [c]) rest

/-- Embedding of `segment_line_for_highlighting(line)` (lines 164-190):
split a line into (text, is_character_name) segments; with no matches the
whole line is one non-highlighted segment. -/
def segment_line_for_highlighting (line : Str) : List (Str × Bool) :=
  let segments := segLoop line.length none [] line
  if segments = [] then [(line, false)] else segments

/-- The previous-character context of the scan after the characters `a`
have been passed over, starting from context `prev`: the last character
of `a` when there is one. -/
def prevAt (prev : Option Char) (a : Str) : Option Char :=
  match a.getLast? with
  | none => prev
  | some c => some c

/-! ### Gap analysis (analyze_story_gaps.py, analyze_gaps, lines 197-331) -/

/-- A character record as built by `fetch_all_characters` (the fields the
gap check uses). -/
structure GapCharacter where
  id : Str
  name : Str
  deriving Repr, DecidableEq

/-- A timeline event record as built by `fetch_all_timeline_events` (the
fields the gap check uses). -/
structure GapTimelineEvent where
  id : Str
  name : Str
  charactersInvolved : List Str
  deriving Repr, DecidableEq

/-- An element record as built by `fetch_all_elements` (the fields the gap
check uses). -/
structure GapElement where
  id : Str
  owner : List Str
  timelineEvent : List Str
  deriving Repr, DecidableEq

/-- The `elements_by_event` coverage map of `analyze_gaps` (lines 209-220)
looked up at one event id: all elements whose `Timeline Event` relation
contains the event. -/
def elementsByEvent (elements : List GapElement) (eventId : Str) : List GapElement :=
  elements.filter (fun el => eventId ∈ el.timelineEvent)

/-- The `timeline_events_without_elements` list built for one character
(lines 242-257): the events involving this character whose
`elements_by_event` entry is absent (`has_elements` false). -/
def eventsWithoutElementsFor (c : GapCharacter) (events : List GapTimelineEvent)
    (elements : List GapElement) : List GapTimelineEvent :=
  (events.filter (fun e => c.id ∈ e.charactersInvolved)).filter
    (fun e => elementsByEvent elements e.id = [])

/-- The union over all characters of the per-character
`timeline_events_without_elements` gap lists: every event that appears in
the unmapped-events output of the gap analysis. -/
def unmappedEventsUnion (characters : List GapCharacter)
    (events : List GapTimelineEvent) (elements : List GapElement) :
    List GapTimelineEvent :=
  events.filter (fun e =>
    characters.any (fun c => e ∈ eventsWithoutElementsFor c events elements))

/-- Concrete character for the gap-analysis instances. -/
def c8char : GapCharacter := ⟨"c1".toList, "Alice".toList⟩

/-- Concrete timeline event with zero linked elements and zero involved
characters. -/
def c8event : GapTimelineEvent := ⟨"e1".toList, "Party".toList, []⟩

/-! ### Paginated fetch and sync run (fetch_all_memory_tokens, lines
528-566, and main, lines 656-738) -/

/-- One response of the paginated Notion query: `results` is `none` when
the payload has no `"results"` key (the malformed/error case), and
`has_more` drives the pagination loop. `α` is the page payload type. -/
structure NotionResp (α : Type) where
  results : Option (List α)
  hasMore : Bool
  deriving Repr, DecidableEq

/-- The `while has_more` pagination loop shared by the fetch routines
(lines 547-564): accumulate `results` pages; on a malformed response
print the raw payload and `break` out of the loop (second component
`true` records that the error was surfaced). Responses are consumed in
request order. -/
def fetchLoop {α : Type} : List (NotionResp α) → List α → List α × Bool
  | [], acc => (acc, false)
  | r :: rest, acc =>
    match r.results with
    | none => (acc, true)
    | some pages =>
      if r.hasMore then fetchLoop rest (acc ++ pages) else (acc ++ pages, false)

/-- `fetch_all_memory_tokens()` on a given sequence of API responses:
returns all accumulated pages (the error flag is only printed). -/
def fetch_all_memory_tokens {α : Type} (responses : List (NotionResp α)) : List α :=
  (fetchLoop responses []).1

/-- Lexicographic comparison of strings, as Python `sorted` uses on the
RFID keys. -/
def lexLe : Str → Str → Bool
  | [], _ => true
  | _ :: _, [] => false
  | a :: as, b :: bs => a < b || (a = b && lexLe as bs)

/-- Stable insertion of one element into a sorted list. -/
def insertSorted {α : Type} (le : α → α → Bool) (x : α) : List α → List α
  | [] => [x]
  | y :: ys => if le x y then x :: y :: ys else y :: insertSorted le x ys

/-- The `sorted(tokens.items())` step of `main` (line 728), modelled as a
stable insertion sort on the RFID keys. -/
def sortTokens {α : Type} (le : α → α → Bool) (l : List α) : List α :=
  l.foldr (insertSorted le) []

/-- Control-flow model of `main()` (lines 656-738): fetch the pages,
process each page into an optional token entry (`proc` abstracts
`process_token`, whose per-page work involves the filesystem and image
rendering), sort by RFID and write `tokens.json`. The result is the
written token list; `none` would mean the run stopped without writing,
which no code path produces. -/
def mainRun {α β : Type} (proc : α → Option (Str × β))
    (responses : List (NotionResp α)) : Option (List (Str × β)) :=
  let pages := fetch_all_memory_tokens responses
  let tokens := pages.filterMap proc
  some (sortTokens (fun x y => lexLe x.1 y.1) tokens)

/-! ### Lemmas about joining and splitting -/

theorem joinWords_merge (x y : Str) (ws : List Str) :
    joinWords ((x ++ y) :: ws) = x ++ joinWords (y :: ws) := by
  cases ws with
  | nil => rfl
  | cons v vs =>
    show (x ++ y) ++ ' ' :: joinWords (v :: vs) = x ++ (y ++ ' ' :: joinWords (v :: vs))
    rw [List.append_assoc]

theorem joinWords_concat (lines : List Str) (a : Str) :
    joinWords (lines ++ [a]) =
      if lines = [] then a else joinWords lines ++ ' ' :: a := by
  induction lines with
  | nil => rfl
  | cons w ws ih =>
    cases ws with
    | nil => rfl
    | cons v vs =>
      show w ++ ' ' :: joinWords ((v :: vs) ++ [a]) = _
      rw [ih]
      simp [joinWords, List.append_assoc]

theorem joinWords_two (lines : List Str) (a b : Str) :
    joinWords (lines ++ [a, b]) = joinWords (lines ++ [a ++ ' ' :: b]) := by
  have h1 : lines ++ [a, b] = (lines ++ [a]) ++ [b] := by simp
  rw [h1, joinWords_concat, joinWords_concat, joinWords_concat]
  have h2 : lines ++ [a] ≠ [] := by simp
  rw [if_neg h2]
  by_cases h : lines = []
  · simp [h, joinWords]
  · simp [h, List.append_assoc]

theorem pySplitAux_good (s : Str) :
    ∀ (cur : Str), (∀ c ∈ cur, pyIsSpace c = false) →
      ∀ p ∈ pySplitAux s cur, p ≠ [] ∧ ∀ c ∈ p, pyIsSpace c = false := by
  induction s with
  | nil =>
    intro cur hcur p hp
    unfold pySplitAux at hp
    by_cases h : cur = []
    · simp [h] at hp
    · simp [h] at hp
      subst hp
      refine ⟨by simpa using h, ?_⟩
      intro c hc
      exact hcur c (List.mem_reverse.mp hc)
  | cons c s ih =>
    intro cur hcur p hp
    unfold pySplitAux at hp
    by_cases hsp : pyIsSpace c
    · rw [if_pos hsp] at hp
      by_cases h : cur = []
      · rw [if_pos h] at hp
        exact ih [] (by simp) p hp
      · rw [if_neg h] at hp
        rcases List.mem_cons.mp hp with h1 | h1
        · subst h1
          refine ⟨by simpa using h, ?_⟩
          intro d hd
          exact hcur d (List.mem_reverse.mp hd)
        · exact ih [] (by simp) p h1
    · rw [if_neg hsp] at hp
      refine ih (c :: cur) ?_ p hp
      intro d hd
      rcases List.mem_cons.mp hd with h1 | h1
      · subst h1
        exact Bool.of_not_eq_true hsp
      · exact hcur d h1

theorem splitSpAux_no_space (s : Str) :
    ∀ (cur : Str), (' ' ∉ s) → splitSpAux s cur = [cur.reverse ++ s] := by
  induction s with
  | nil => intro cur _; simp [splitSpAux]
  | cons c s ih =>
    intro cur h
    have hc : ¬(c = ' ') := fun hc => h (by simp [hc])
    unfold splitSpAux
    rw [if_neg hc, ih (c :: cur) (fun hs => h (List.mem_cons_of_mem _ hs))]
    simp

theorem splitSpAux_push (p : Str) (t : Str) :
    ∀ (cur : Str), (' ' ∉ p) →
      splitSpAux (p ++ ' ' :: t) cur = (cur.reverse ++ p) :: splitSpAux t [] := by
  induction p with
  | nil => intro cur _; simp [splitSpAux]
  | cons c p ih =>
    intro cur h
    have hc : ¬(c = ' ') := fun hc => h (by simp [hc])
    have hstep : splitSpAux (c :: (p ++ ' ' :: t)) cur = splitSpAux (p ++ ' ' :: t) (c :: cur) := by
      simp only [splitSpAux, if_neg hc]
    show splitSpAux (c :: (p ++ ' ' :: t)) cur = _
    rw [hstep, ih (c :: cur) (fun hs => h (List.mem_cons_of_mem _ hs))]
    simp

theorem splitSp_joinWords (pieces : List Str) (hne : pieces ≠ [])
    (hall : ∀ p ∈ pieces, ' ' ∉ p) : splitSp (joinWords pieces) = pieces := by
  induction pieces with
  | nil => exact absurd rfl hne
  | cons p ps ih =>
    cases ps with
    | nil =>
      show splitSpAux (joinWords [p]) [] = [p]
      rw [show joinWords [p] = p from rfl,
        splitSpAux_no_space p [] (hall p (by simp))]
      rfl
    | cons q qs =>
      show splitSpAux (p ++ ' ' :: joinWords (q :: qs)) [] = p :: q :: qs
      rw [splitSpAux_push p _ [] (hall p (by simp))]
      have := ih (by simp) (fun r hr => hall r (List.mem_cons_of_mem _ hr))
      simpa [splitSp] using this

theorem splitSpAux_mem_no_space (s : Str) :
    ∀ (cur : Str) (p : Str), (' ' ∉ cur) → p ∈ splitSpAux s cur → ' ' ∉ p := by
  induction s with
  | nil =>
    intro cur p hcur hp
    unfold splitSpAux at hp
    simp at hp
    subst hp
    simpa using hcur
  | cons c s ih =>
    intro cur p hcur hp
    unfold splitSpAux at hp
    by_cases hc : c = ' '
    · rw [if_pos hc] at hp
      rcases List.mem_cons.mp hp with h1 | h1
      · subst h1; simpa using hcur
      · exact ih [] p (by simp) h1
    · rw [if_neg hc] at hp
      refine ih (c :: cur) p ?_ hp
      intro hs
      rcases List.mem_cons.mp hs with h1 | h1
      · exact hc h1.symm
      · exact hcur h1

theorem take_length_takeWhile (p : Char → Bool) (l : Str) :
    l.take (l.takeWhile p).length = l.takeWhile p := by
  induction l with
  | nil => rfl
  | cons c rest ih =>
    by_cases hc : p c
    · rw [List.takeWhile_cons, if_pos hc]
      simp [List.take_succ_cons, ih]
    · rw [List.takeWhile_cons, if_neg hc]
      rfl

/-- Splitting a list at the end of its `takeWhile` segment, phrased with
`drop` of the segment's length as the matchers compute it. -/
theorem takeWhile_split (p : Char → Bool) (l : Str) :
    l = l.takeWhile p ++ l.drop (l.takeWhile p).length := by
  conv_lhs => rw [← List.take_append_drop (l.takeWhile p).length l]
  rw [take_length_takeWhile]

theorem take_takeWhile_eq_take (p : Char → Bool) (s : Str) (n : Nat) :
    (s.takeWhile p).take n = s.take (min n (s.takeWhile p).length) := by
  have h1 : (s.takeWhile p).take n = (s.take (s.takeWhile p).length).take n := by
    rw [take_length_takeWhile]
  rw [h1, List.take_take]

/-! ### Lemmas about the greedy wrap loop -/

theorem wrapLoop_join (wd : Str → Nat) (mw : Nat) :
    ∀ (ws : List Str) (lines : List Str) (cur : Str), cur ≠ [] →
      (∀ w ∈ ws, w ≠ []) →
      joinWords (wrapLoop wd mw ws lines cur) =
        joinWords (lines ++ [joinWords (cur :: ws)]) := by
  intro ws
  induction ws with
  | nil =>
    intro lines cur hcur _
    show joinWords (if cur = [] then lines else lines ++ [cur]) = _
    rw [if_neg hcur]
    rfl
  | cons w ws ih =>
    intro lines cur hcur hws
    show joinWords
        (if wd (cur ++ (if cur = [] then [] else [' ']) ++ w) > mw ∧ cur ≠ [] then
          wrapLoop wd mw ws (lines ++ [cur]) w
        else wrapLoop wd mw ws lines (cur ++ (if cur = [] then [] else [' ']) ++ w)) = _
    rw [if_neg hcur]
    have hw : w ≠ [] := hws w (by simp)
    have hws' : ∀ v ∈ ws, v ≠ [] := fun v hv => hws v (List.mem_cons_of_mem _ hv)
    by_cases hbreak : wd (cur ++ [' '] ++ w) > mw ∧ cur ≠ []
    · rw [if_pos hbreak, ih (lines ++ [cur]) w hw hws']
      have h1 : (lines ++ [cur]) ++ [joinWords (w :: ws)] =
          lines ++ [cur, joinWords (w :: ws)] := by simp
      rw [h1, joinWords_two]
      have h2 : cur ++ ' ' :: joinWords (w :: ws) = joinWords (cur :: w :: ws) := rfl
      rw [h2]
    · rw [if_neg hbreak, ih lines (cur ++ [' '] ++ w) (by simp) hws']
      have h3 : joinWords ((cur ++ [' '] ++ w) :: ws) = joinWords (cur :: w :: ws) := by
        rw [List.append_assoc, joinWords_merge, joinWords_merge]
        rfl
      rw [h3]

theorem wrapLoop_line_fits (wd : Str → Nat) (mw : Nat) :
    ∀ (ws : List Str) (lines : List Str) (cur : Str),
      (∀ w ∈ ws, ' ' ∉ w) →
      (∀ l ∈ lines, wd l ≤ mw ∨ ' ' ∉ l) →
      (cur = [] ∨ wd cur ≤ mw ∨ ' ' ∉ cur) →
      ∀ l ∈ wrapLoop wd mw ws lines cur, wd l ≤ mw ∨ ' ' ∉ l := by
  intro ws
  induction ws with
  | nil =>
    intro lines cur _ hlines hcur l hl
    by_cases h : cur = []
    · simp [wrapLoop, h] at hl
      exact hlines l hl
    · simp [wrapLoop, h] at hl
      rcases hl with h1 | h1
      · exact hlines l h1
      · subst h1
        rcases hcur with h2 | h2
        · exact absurd h2 h
        · exact h2
  | cons w ws ih =>
    intro lines cur hws hlines hcur l hl
    have hw : ' ' ∉ w := hws w (by simp)
    have hws' : ∀ v ∈ ws, ' ' ∉ v := fun v hv => hws v (List.mem_cons_of_mem _ hv)
    have hstep : wrapLoop wd mw (w :: ws) lines cur =
        if wd (cur ++ (if cur = [] then [] else [' ']) ++ w) > mw ∧ cur ≠ [] then
          wrapLoop wd mw ws (lines ++ [cur]) w
        else wrapLoop wd mw ws lines (cur ++ (if cur = [] then [] else [' ']) ++ w) := rfl
    rw [hstep] at hl
    by_cases hbreak : wd (cur ++ (if cur = [] then [] else [' ']) ++ w) > mw ∧ cur ≠ []
    · rw [if_pos hbreak] at hl
      refine ih (lines ++ [cur]) w hws' ?_ (Or.inr (Or.inr hw)) l hl
      intro x hx
      rcases List.mem_append.mp hx with h1 | h1
      · exact hlines x h1
      · have hx2 : x = cur := by simpa using h1
        subst hx2
        rcases hcur with h2 | h2
        · exact absurd h2 hbreak.2
        · exact h2
    · rw [if_neg hbreak] at hl
      refine ih lines (cur ++ (if cur = [] then [] else [' ']) ++ w) hws' hlines ?_ l hl
      by_cases hc : cur = []
      · subst hc
        right; right
        simpa using hw
      · right; left
        rw [not_and_or] at hbreak
        rcases hbreak with h2 | h2
        · omega
        · exact absurd hc (by simpa using h2)

/-! ### Claim C10: the wrapper loses no content -/

/-- C10: the greedy word wrapper loses no content: for every input text
(and any width measure and maximum width), joining the returned lines
with single spaces equals the whitespace-normalized input, i.e. the input
split on whitespace and rejoined with single spaces. In particular no
word is split across lines, dropped, duplicated, or reordered. -/
theorem wrap_join_eq_normalized (wd : Str → Nat) (mw : Nat) (text : Str) :
    joinWords (wrap_text_with_font wd mw text) = joinWords (pySplit text) := by
  unfold wrap_text_with_font
  rcases hp : pySplit text with _ | ⟨p, ps⟩
  · simp [wrapLoop, splitSp, splitSpAux, joinWords]
  · have hgood : ∀ q ∈ p :: ps, q ≠ [] ∧ ∀ c ∈ q, pyIsSpace c = false := by
      rw [← hp]
      exact pySplitAux_good text [] (by simp)
    have hnospace : ∀ q ∈ p :: ps, ' ' ∉ q := by
      intro q hq hs
      have := (hgood q hq).2 ' ' hs
      simp [pyIsSpace] at this
    have hne : ∀ q ∈ p :: ps, q ≠ [] := fun q hq => (hgood q hq).1
    show joinWords (wrapLoop wd mw (splitSp (joinWords (p :: ps))) [] []) = joinWords (p :: ps)
    rw [splitSp_joinWords (p :: ps) (by simp) hnospace]
    have hfirst : wrapLoop wd mw (p :: ps) [] [] = wrapLoop wd mw ps [] p := by
      simp [wrapLoop]
    rw [hfirst,
      wrapLoop_join wd mw ps [] p (hne p (by simp))
        (fun v hv => hne v (List.mem_cons_of_mem _ hv))]
    rfl

/-! ### Claim C4: line widths -/

/-- C4 (amended): every line returned by the greedy word wrapper either
has measured width at most the maximum width or consists of a single
word (contains no space); a single word wider than the maximum width is
emitted on its own overlong line. -/
theorem wrap_line_fits_or_single_word (wd : Str → Nat) (mw : Nat) (text : Str) (l : Str)
    (h : l ∈ wrap_text_with_font wd mw text) : wd l ≤ mw ∨ ' ' ∉ l := by
  unfold wrap_text_with_font at h
  refine wrapLoop_line_fits wd mw _ [] [] ?_ (by simp) (Or.inl rfl) l h
  intro w hw
  exact splitSpAux_mem_no_space _ [] w (by simp) hw

theorem wrap_line_fits_or_single_word_witness :
    "hello".toList ∈ wrap_text_with_font (fun s => s.length) 5 ("hello world".toList) ∧
      ((fun s : Str => s.length) "hello".toList ≤ 5 ∨ ' ' ∉ "hello".toList) :=
  ⟨by decide, wrap_line_fits_or_single_word (fun s => s.length) 5 ("hello world".toList)
    ("hello".toList) (by decide)⟩

/-- C4 counterexample: with the monospace size-10 measure (6 px per
character), a single 36-character word (216 px) is returned as a rendered
line even though the maximum width is 210 px, so a returned line can
exceed the maximum width passed in. -/
theorem c4_counterexample :
    List.replicate 36 'a' ∈
        wrap_text_with_font (mwd 10) bodyMaxWidth (List.replicate 36 'a') ∧
      bodyMaxWidth < mwd 10 (List.replicate 36 'a') := by decide

/-! ### Claims C1-C3: the measure-and-fit selector -/

theorem selectLoop_eq_find (wd : Nat → Str → Nat) (body : Str) (cands : List (Nat × Nat)) :
    selectLoop wd body cands =
      (cands.find? (fun p =>
          (wrap_text_with_font (wd p.1) bodyMaxWidth body).length ≤ maxLinesForHeight p.2)).map
        (fun p => (p.1, p.2, wrap_text_with_font (wd p.1) bodyMaxWidth body)) := by
  induction cands with
  | nil => rfl
  | cons c rest ih =>
    obtain ⟨fs, lh⟩ := c
    by_cases h : (wrap_text_with_font (wd fs) bodyMaxWidth body).length ≤ maxLinesForHeight lh
    · simp [selectLoop, h, List.find?_cons]
    · simp [selectLoop, h, List.find?_cons, ih]

theorem selectLoop_some_fits (wd : Nat → Str → Nat) (body : Str) (cands : List (Nat × Nat)) :
    ∀ fs lh lines, selectLoop wd body cands = some (fs, lh, lines) →
      lines.length ≤ maxLinesForHeight lh := by
  induction cands with
  | nil => intro fs lh lines h; simp [selectLoop] at h
  | cons c rest ih =>
    obtain ⟨a, b⟩ := c
    intro fs lh lines h
    by_cases hfit : (wrap_text_with_font (wd a) bodyMaxWidth body).length ≤ maxLinesForHeight b
    · simp [selectLoop, hfit] at h
      obtain ⟨h1, h2, h3⟩ := h
      subst h2; subst h3
      exact hfit
    · simp [selectLoop, hfit] at h
      exact ih fs lh lines h

/-- C1: for every body text (and any family of font width measures), the
measure-and-fit selector is exactly the spec's policy: iterate the fixed
descending candidate list FONT_SIZES in order, select the first
candidate whose greedy word-wrapped line count is at most
`(320 - 62 - 18) / lineHeight`; if none satisfies this, use the smallest
candidate (10, 14), cut the wrapped lines to that capacity and append the
truncation marker. -/
theorem generateBody_eq_measureFitSpec (wd : Nat → Str → Nat) (body : Str) :
    generateBody wd body = measureFitSpec wd body := by
  unfold generateBody measureFitSpec
  rw [selectLoop_eq_find]
  cases hf : FONT_SIZES.find? (fun p =>
      (wrap_text_with_font (wd p.1) bodyMaxWidth body).length ≤ maxLinesForHeight p.2) with
  | some p => obtain ⟨fs, lh⟩ := p; rfl
  | none =>
    have h1014 : ((10 : Nat), (14 : Nat)) ∈ FONT_SIZES := by decide
    have hnofit := List.find?_eq_none.mp hf _ h1014
    simp only [decide_eq_true_eq, not_le] at hnofit
    simp [hnofit]

/-- C2: for every input body text (and any family of font width
measures), the number of rendered body lines never exceeds the vertical
capacity `(320 - 62 - 18) / lineHeight` of the chosen candidate's line
height, both when some candidate fits and in the truncation fallback. -/
theorem generateBody_lines_le_capacity (wd : Nat → Str → Nat) (body : Str) :
    (generateBody wd body).displayLines.length ≤
      maxLinesForHeight (generateBody wd body).lineHeight := by
  unfold generateBody
  cases hf : selectLoop wd body FONT_SIZES with
  | some t =>
    obtain ⟨fs, lh, lines⟩ := t
    simpa using selectLoop_some_fits wd body FONT_SIZES fs lh lines hf
  | none =>
    simp [List.length_take]

/-- C3 (amended): for every input whose wrapped line count at the largest
candidate (18, 24) is within that candidate's capacity, the selector
chooses (18, 24). Fitting within the smallest candidate's capacity does
not suffice (see the counterexample). -/
theorem generateBody_largest_when_fits (wd : Nat → Str → Nat) (body : Str)
    (h : (wrap_text_with_font (wd 18) bodyMaxWidth body).length ≤ maxLinesForHeight 24) :
    generateBody wd body =
      ⟨18, 24, wrap_text_with_font (wd 18) bodyMaxWidth body, false⟩ := by
  unfold generateBody
  have hsel : selectLoop wd body FONT_SIZES =
      some (18, 24, wrap_text_with_font (wd 18) bodyMaxWidth body) := by
    simp [selectLoop, FONT_SIZES, h]
  rw [hsel]

theorem generateBody_largest_when_fits_witness :
    ((wrap_text_with_font (mwd 18) bodyMaxWidth ("hi".toList)).length ≤ maxLinesForHeight 24) ∧
      generateBody mwd ("hi".toList) =
        ⟨18, 24, wrap_text_with_font (mwd 18) bodyMaxWidth ("hi".toList), false⟩ :=
  ⟨by decide, generateBody_largest_when_fits mwd ("hi".toList) (by decide)⟩

set_option maxRecDepth 8000 in
/-- C3 counterexample: `c3text` (17 fifteen-character words, 271
characters) is far below the smallest candidate's capacity — it wraps to
at most 9 of the allowed 17 lines at size 10 and its length is under the
595-character capacity of the smallest candidate — yet the selector
chooses font size 10, not the largest candidate 18: at every larger size
each word occupies its own line and the 17 lines exceed that size's
capacity. -/
theorem c3_counterexample :
    (wrap_text_with_font (mwd 10) bodyMaxWidth c3text).length ≤ maxLinesForHeight 14 ∧
      c3text.length < (bodyMaxWidth / ((3 * 10 + 2) / 5)) * maxLinesForHeight 14 ∧
      (generateBody mwd c3text).fontSize = 10 := by decide

/-! ### Claims C5-C6: timestamp extraction -/

/-- C5 counterexample: timestamp extraction is not idempotent on its own
output: on `"1:22am - 3:45pm x"` it extracts `1:22am` leaving
`"3:45pm x"`, and re-running extraction on that remaining text extracts
the second timestamp `3:45pm` instead of returning none. -/
theorem c5_counterexample :
    extract_timestamp ("1:22am - 3:45pm x".toList) =
        (some ("1:22am".toList), some TsType.time, "3:45pm x".toList) ∧
      (extract_timestamp ("3:45pm x".toList)).1 = some ("3:45pm".toList) := by decide

/-- C5 (amended): re-running extraction after a successful extraction
yields no timestamp provided the remaining body text, after stripping any
further token-code prefix, matches neither the time pattern nor the date
pattern; in general the remainder may itself begin with another timestamp
and is then extracted again. -/
theorem extract_timestamp_no_rematch (s r ts : Str) (ty : Option TsType)
    (_h : extract_timestamp s = (some ts, ty, r))
    (ht : timeMatch (stripTokenCode r) = none)
    (hd : dateMatch (stripTokenCode r) = none) :
    (extract_timestamp r).1 = none := by
  unfold extract_timestamp
  simp [ht, hd]

theorem extract_timestamp_no_rematch_witness :
    (extract_timestamp ("hello".toList)).1 = none :=
  extract_timestamp_no_rematch ("TAC001 - 1:22am - hello".toList) ("hello".toList)
    ("1:22am".toList) (some TsType.time) (by decide) (by decide) (by decide)

/-- Soundness of the token-code matcher against the spec's declarative
prefix description. -/
theorem tokenCodeMatch_sound {s rest : Str} (h : tokenCodeMatch s = some rest) :
    tokenCodeShape s rest := by
  simp only [tokenCodeMatch] at h
  split at h
  · rename_i hlet
    split at h
    · rename_i hdig
      split at h
      · rename_i c rest1 heq
        split at h
        · rename_i hdash
          rw [Option.some.injEq] at h
          subst h
          refine ⟨s.takeWhile Char.isAlpha,
            (s.drop (s.takeWhile Char.isAlpha).length).takeWhile Char.isDigit,
            ((s.drop (s.takeWhile Char.isAlpha).length).drop
              ((s.drop (s.takeWhile Char.isAlpha).length).takeWhile Char.isDigit).length).takeWhile
              pyIsSpace,
            c, rest1.takeWhile pyIsSpace,
            ?_, hlet.1, hlet.2, fun x hx => List.mem_takeWhile_imp hx,
            hdig.1, hdig.2, fun x hx => List.mem_takeWhile_imp hx,
            fun x hx => List.mem_takeWhile_imp hx, hdash,
            fun x hx => List.mem_takeWhile_imp hx⟩
          conv_lhs => rw [takeWhile_split Char.isAlpha s]
          conv_lhs => rw [takeWhile_split Char.isDigit (s.drop (s.takeWhile Char.isAlpha).length)]
          conv_lhs =>
            rw [(List.takeWhile_append_dropWhile pyIsSpace
              ((s.drop (s.takeWhile Char.isAlpha).length).drop
                ((s.drop (s.takeWhile Char.isAlpha).length).takeWhile Char.isDigit).length)).symm]
          rw [heq, (List.takeWhile_append_dropWhile pyIsSpace rest1).symm]
          simp
        · simp at h
      · simp at h
    · simp at h
  · simp at h

/-- Soundness of the hour atom: the consumed text and its shape. -/
theorem hourMatch_sound {s hh after : Str} (h : hourMatch s = some (hh, after)) :
    s = hh ++ ':' :: after ∧
      (hh = ['?', '?'] ∨ (1 ≤ hh.length ∧ hh.length ≤ 2 ∧ ∀ c ∈ hh, Char.isDigit c = true)) := by
  simp only [hourMatch] at h
  split at h
  · rename_i hlen
    split at h
    · rename_i c rest heq
      split at h
      · rename_i hcolon
        rw [Option.some.injEq, Prod.mk.injEq] at h
        obtain ⟨h1, h2⟩ := h
        subst h1; subst h2
        refine ⟨?_, Or.inr ⟨hlen.1, hlen.2, fun x hx => List.mem_takeWhile_imp hx⟩⟩
        conv_lhs => rw [takeWhile_split Char.isDigit s]
        rw [heq, hcolon]
      · simp at h
    · simp at h
  · split at h
    · split at h
      · rename_i hq
        rw [Option.some.injEq, Prod.mk.injEq] at h
        obtain ⟨h1, h2⟩ := h
        subst h1; subst h2
        obtain ⟨ha, hb, hc2⟩ := hq
        subst ha; subst hb; subst hc2
        exact ⟨rfl, Or.inl rfl⟩
      · simp at h
    · simp at h

/-- Soundness of the minutes atom. -/
theorem minutesMatch_sound {s mm after : Str} (h : minutesMatch s = some (mm, after)) :
    s = mm ++ after ∧
      (mm = ['?', '?'] ∨ (mm.length = 2 ∧ ∀ c ∈ mm, Char.isDigit c = true)) := by
  unfold minutesMatch at h
  split at h
  · rename_i a b rest
    split at h
    · rename_i hab
      rw [Option.some.injEq, Prod.mk.injEq] at h
      obtain ⟨h1, h2⟩ := h
      subst h1; subst h2
      refine ⟨rfl, Or.inr ⟨rfl, ?_⟩⟩
      intro c hc
      rcases List.mem_cons.mp hc with h3 | h3
      · subst h3; exact hab.1
      · rcases List.mem_cons.mp h3 with h4 | h4
        · subst h4; exact hab.2
        · simp at h4
    · split at h
      · rename_i hq
        rw [Option.some.injEq, Prod.mk.injEq] at h
        obtain ⟨h1, h2⟩ := h
        subst h1; subst h2
        obtain ⟨ha, hb⟩ := hq
        subst ha; subst hb
        exact ⟨rfl, Or.inl rfl⟩
      · simp at h
  · simp at h

/-- The meridiem atom always splits its input. -/
theorem meridiemMatch_split (s : Str) :
    s = (meridiemMatch s).1 ++ (meridiemMatch s).2 ∧
      ((meridiemMatch s).1 = [] ∨ (meridiemMatch s).1 = ['a', 'm'] ∨
        (meridiemMatch s).1 = ['p', 'm'] ∨ (meridiemMatch s).1 = ['A', 'M'] ∨
        (meridiemMatch s).1 = ['P', 'M']) := by
  rcases s with _ | ⟨a, s'⟩
  · exact ⟨rfl, Or.inl rfl⟩
  rcases s' with _ | ⟨b, rest⟩
  · exact ⟨rfl, Or.inl rfl⟩
  by_cases hab : (a = 'a' ∧ b = 'm') ∨ (a = 'p' ∧ b = 'm') ∨
      (a = 'A' ∧ b = 'M') ∨ (a = 'P' ∧ b = 'M')
  · refine ⟨by simp [meridiemMatch, hab], ?_⟩
    rcases hab with ⟨h1, h2⟩ | ⟨h1, h2⟩ | ⟨h1, h2⟩ | ⟨h1, h2⟩ <;>
      simp [meridiemMatch, h1, h2]
  · exact ⟨by simp [meridiemMatch, hab], by simp [meridiemMatch, hab]⟩

/-- The `\s*[-–]?\s*` tail always splits its input into whitespace, an
optional dash, whitespace, and the returned rest. -/
theorem dashTail_split (s : Str) :
    ∃ wsA dOpt wsB,
      s = wsA ++ dOpt ++ wsB ++ dashTail s ∧
      (∀ c ∈ wsA, pyIsSpace c = true) ∧ (∀ c ∈ wsB, pyIsSpace c = true) ∧
      (dOpt = [] ∨ ∃ d, dOpt = [d] ∧ isDash d = true) := by
  have hsp := List.takeWhile_append_dropWhile pyIsSpace s
  rcases hd : s.dropWhile pyIsSpace with _ | ⟨c, rest1⟩
  · refine ⟨s.takeWhile pyIsSpace, [], [], ?_,
      fun x hx => List.mem_takeWhile_imp hx, by simp, Or.inl rfl⟩
    have hdt : dashTail s = [] := by simp [dashTail, hd]
    rw [hdt]
    rw [hd, List.append_nil] at hsp
    simp only [List.append_nil]
    exact hsp.symm
  · by_cases hdash : isDash c = true
    · refine ⟨s.takeWhile pyIsSpace, [c], rest1.takeWhile pyIsSpace, ?_,
        fun x hx => List.mem_takeWhile_imp hx,
        fun x hx => List.mem_takeWhile_imp hx, Or.inr ⟨c, rfl, hdash⟩⟩
      have hdt : dashTail s = rest1.dropWhile pyIsSpace := by simp [dashTail, hd, hdash]
      rw [hdt]
      rw [hd] at hsp
      conv_lhs => rw [← hsp]
      rw [(List.takeWhile_append_dropWhile pyIsSpace rest1).symm]
      simp
    · refine ⟨s.takeWhile pyIsSpace, [], [], ?_,
        fun x hx => List.mem_takeWhile_imp hx, by simp, Or.inl rfl⟩
      have hdt : dashTail s = s.dropWhile pyIsSpace := by simp [dashTail, hd, hdash]
      rw [hdt]
      conv_lhs => rw [← hsp]
      simp

/-- Soundness of the time matcher against the spec's declarative clock
pattern. -/
theorem timeMatch_sound {s g rest : Str} (h : timeMatch s = some (g, rest)) :
    timeGroupShape s g rest := by
  unfold timeMatch at h
  rcases hhm : hourMatch s with _ | ⟨hh, afterColon⟩
  · simp [hhm] at h
  · simp only [hhm] at h
    rcases hmm2 : minutesMatch afterColon with _ | ⟨mm, afterMin⟩
    · simp [hmm2] at h
    · simp only [hmm2] at h
      rw [Option.some.injEq, Prod.mk.injEq] at h
      obtain ⟨hg, hrest⟩ := h
      obtain ⟨hs1, hh_shape⟩ := hourMatch_sound hhm
      obtain ⟨hs2, mm_shape⟩ := minutesMatch_sound hmm2
      have hms := meridiemMatch_split (afterMin.drop (afterMin.takeWhile pyIsSpace).length)
      obtain ⟨wsA, dOpt, wsB, hdt, hwsA, hwsB, hdopt⟩ :=
        dashTail_split
          ((meridiemMatch (afterMin.drop (afterMin.takeWhile pyIsSpace).length)).2)
      refine ⟨hh, mm, afterMin.takeWhile pyIsSpace,
        (meridiemMatch (afterMin.drop (afterMin.takeWhile pyIsSpace).length)).1,
        wsA ++ dOpt ++ wsB, ?_, ?_, hh_shape, mm_shape,
        fun x hx => List.mem_takeWhile_imp hx, hms.2⟩
      · rw [← hg]
        simp
      · rw [← hg, ← hrest]
        conv_lhs => rw [hs1, hs2, takeWhile_split pyIsSpace afterMin, hms.1, hdt]
        simp

/-- Soundness of the day/month atom. -/
theorem dayMatch_sound {s dd after : Str} (h : dayMatch s = some (dd, after)) :
    s = dd ++ '/' :: after ∧
      (dd = ['?', '?'] ∨ (1 ≤ dd.length ∧ dd.length ≤ 2 ∧ ∀ c ∈ dd, Char.isDigit c = true)) := by
  simp only [dayMatch] at h
  split at h
  · rename_i hlen
    split at h
    · rename_i c rest heq
      split at h
      · rename_i hslash
        rw [Option.some.injEq, Prod.mk.injEq] at h
        obtain ⟨h1, h2⟩ := h
        subst h1; subst h2
        refine ⟨?_, Or.inr ⟨hlen.1, hlen.2, fun x hx => List.mem_takeWhile_imp hx⟩⟩
        conv_lhs => rw [takeWhile_split Char.isDigit s]
        rw [heq, hslash]
      · simp at h
    · simp at h
  · split at h
    · split at h
      · rename_i hq
        rw [Option.some.injEq, Prod.mk.injEq] at h
        obtain ⟨h1, h2⟩ := h
        subst h1; subst h2
        obtain ⟨ha, hb, hc2⟩ := hq
        subst ha; subst hb; subst hc2
        exact ⟨rfl, Or.inl rfl⟩
      · simp at h
    · simp at h

/-- Soundness of the year atom. -/
theorem yearMatch_sound {s y after : Str} (h : yearMatch s = some (y, after)) :
    s = y ++ after ∧
      (y = ['?', '?'] ∨ (2 ≤ y.length ∧ y.length ≤ 4 ∧ ∀ c ∈ y, Char.isDigit c = true)) := by
  simp only [yearMatch] at h
  split at h
  · rename_i hlen
    rw [Option.some.injEq, Prod.mk.injEq] at h
    obtain ⟨h1, h2⟩ := h
    subst h1; subst h2
    have hlen4 : ((s.takeWhile Char.isDigit).take 4).length =
        min 4 (s.takeWhile Char.isDigit).length := List.length_take 4 _
    constructor
    · have htk : s.take ((s.takeWhile Char.isDigit).take 4).length =
          (s.takeWhile Char.isDigit).take 4 := by
        rw [hlen4, ← take_takeWhile_eq_take]
      conv_lhs =>
        rw [← List.take_append_drop ((s.takeWhile Char.isDigit).take 4).length s]
      rw [htk]
    · right
      refine ⟨?_, ?_, ?_⟩
      · rw [hlen4]; omega
      · rw [hlen4]; omega
      · intro c hc
        exact List.mem_takeWhile_imp (List.mem_of_mem_take hc)
  · split at h
    · split at h
      · rename_i hq
        rw [Option.some.injEq, Prod.mk.injEq] at h
        obtain ⟨h1, h2⟩ := h
        subst h1; subst h2
        obtain ⟨ha, hb⟩ := hq
        subst ha; subst hb
        exact ⟨rfl, Or.inl rfl⟩
      · simp at h
    · simp at h

/-- Soundness of the date matcher against the spec's declarative date
pattern. -/
theorem dateMatch_sound {s g rest : Str} (h : dateMatch s = some (g, rest)) :
    dateGroupShape s g rest := by
  unfold dateMatch at h
  rcases hm1 : dayMatch s with _ | ⟨m, afterM⟩
  · simp [hm1] at h
  · simp only [hm1] at h
    rcases hm2 : dayMatch afterM with _ | ⟨d, afterD⟩
    · simp [hm2] at h
    · simp only [hm2] at h
      rcases hm3 : yearMatch afterD with _ | ⟨y, afterY⟩
      · simp [hm3] at h
      · simp only [hm3] at h
        rw [Option.some.injEq, Prod.mk.injEq] at h
        obtain ⟨hg, hrest⟩ := h
        obtain ⟨he1, m_shape⟩ := dayMatch_sound hm1
        obtain ⟨he2, d_shape⟩ := dayMatch_sound hm2
        obtain ⟨he3, y_shape⟩ := yearMatch_sound hm3
        obtain ⟨wsA, dOpt, wsB, hdt, hwsA, hwsB, hdopt⟩ := dashTail_split afterY
        refine ⟨m, d, y, wsA ++ dOpt ++ wsB, ?_, ?_, m_shape, d_shape, y_shape⟩
        · rw [← hg]
          simp
        · rw [← hg, ← hrest]
          conv_lhs => rw [he1, he2, he3, hdt]
          simp

/-- C6: for every input string, `extract_timestamp` first strips a
leading item-code prefix (2-4 letters, 2-4 digits, dash), then attempts
the clock-time pattern before the date pattern: a time match determines
the result even when it exists (the date branch only runs when the time
pattern fails), the matched timestamp is classified `unknown` when it
contains `??` and `time`/`date` otherwise, and when neither pattern
matches the function returns no timestamp together with the
prefix-stripped text, as a valid outcome rather than an error (it is
total). Moreover the three matchers agree with the spec's declarative
descriptions: a stripped prefix is 2-4 letters, 2-4 digits and a dash
(`tokenCodeShape`); a time match is `H:MM[am|pm]` with `??` placeholders
(`timeGroupShape`); a date match is `M/D/Y` with `??` placeholders and a
2-4 digit year (`dateGroupShape`). -/
theorem extract_timestamp_spec (s : Str) :
    (∀ g r, timeMatch (stripTokenCode s) = some (g, r) →
      extract_timestamp s =
        (some (pyStrip g),
          some (if hasQQ (pyStrip g) then TsType.unknown else TsType.time), pyStrip r)) ∧
    (∀ g r, timeMatch (stripTokenCode s) = none →
      dateMatch (stripTokenCode s) = some (g, r) →
      extract_timestamp s =
        (some (pyStrip g),
          some (if hasQQ (pyStrip g) then TsType.unknown else TsType.date), pyStrip r)) ∧
    (timeMatch (stripTokenCode s) = none → dateMatch (stripTokenCode s) = none →
      extract_timestamp s = (none, none, stripTokenCode s)) ∧
    (∀ ts ty r, extract_timestamp s = (some ts, ty, r) → hasQQ ts = true →
      ty = some TsType.unknown) ∧
    (∀ rest2, tokenCodeMatch s = some rest2 → tokenCodeShape s rest2) ∧
    (∀ g r, timeMatch s = some (g, r) → timeGroupShape s g r) ∧
    (∀ g r, dateMatch s = some (g, r) → dateGroupShape s g r) := by
  refine ⟨?_, ?_, ?_, ?_, fun rest2 h => tokenCodeMatch_sound h,
    fun g r h => timeMatch_sound h, fun g r h => dateMatch_sound h⟩
  · intro g r hg
    unfold extract_timestamp
    simp [hg]
  · intro g r ht hg
    unfold extract_timestamp
    simp [ht, hg]
  · intro ht hd
    unfold extract_timestamp
    simp [ht, hd]
  · intro ts ty r h hq
    unfold extract_timestamp at h
    rcases hc : timeMatch (stripTokenCode s) with _ | ⟨g, rest⟩
    · rcases hdc : dateMatch (stripTokenCode s) with _ | ⟨g, rest⟩
      · simp [hc, hdc] at h
      · simp [hc, hdc] at h
        obtain ⟨h1, h2, _⟩ := h
        subst h1
        rw [← h2, if_pos hq]
    · simp [hc] at h
      obtain ⟨h1, h2, _⟩ := h
      subst h1
      rw [← h2, if_pos hq]

theorem extract_timestamp_spec_witness :
    extract_timestamp ("TAC001 - 1:22am - x".toList) =
      (some (pyStrip ("1:22am".toList)),
        some (if hasQQ (pyStrip ("1:22am".toList)) then TsType.unknown else TsType.time),
        pyStrip ("x".toList)) :=
  (extract_timestamp_spec ("TAC001 - 1:22am - x".toList)).1 ("1:22am".toList)
    ("x".toList) (by decide)

/-! ### Claim C7: name-highlight segmentation -/

/-- A successful `nameTokenMatch` splits its input and consumes at least
the two-letter run. -/
theorem nameTokenMatch_eq {prev : Option Char} {l m r : Str}
    (h : nameTokenMatch prev l = some (m, r)) : m ++ r = l ∧ 2 ≤ m.length := by
  have hsplit : l.takeWhile Char.isUpper ++ l.dropWhile Char.isUpper = l :=
    List.takeWhile_append_dropWhile Char.isUpper l
  unfold nameTokenMatch at h
  split at h
  · rename_i hb
    split at h
    · rw [Option.some.injEq, Prod.mk.injEq] at h
      obtain ⟨hm, hr⟩ := h
      subst hm; subst hr
      refine ⟨?_, ?_⟩
      · rw [List.append_assoc, List.take_append_drop]
        exact hsplit
      · have := hb.2
        rw [List.length_append]
        omega
    · split at h
      · rw [Option.some.injEq, Prod.mk.injEq] at h
        obtain ⟨hm, hr⟩ := h
        subst hm; subst hr
        exact ⟨hsplit, hb.2⟩
      · exact absurd h (by simp)
  · exact absurd h (by simp)

/-- The rest after a successful match is strictly shorter. -/
theorem nameTokenMatch_lt {prev : Option Char} {l m r : Str}
    (h : nameTokenMatch prev l = some (m, r)) : r.length < l.length := by
  obtain ⟨heq, hlen⟩ := nameTokenMatch_eq h
  have : m.length + r.length = l.length := by
    rw [← List.length_append, heq]
  omega

/-- Shape of a name token as described by the pattern: a maximal run of
two or more uppercase letters optionally followed by the two-character
possessive (apostrophe and `s`/`S`). -/
def nameShape (s : Str) : Bool :=
  2 ≤ (s.takeWhile Char.isUpper).length &&
    (match s.dropWhile Char.isUpper with
     | [] => true
     | [c, d] => c = apost && (d = 's' || d = 'S')
     | _ => false)

theorem takeWhile_all_append (p : Char → Bool) (a b : Str)
    (ha : ∀ x ∈ a, p x = true) (hb : b = [] ∨ ∃ c bs, b = c :: bs ∧ p c = false) :
    (a ++ b).takeWhile p = a ∧ (a ++ b).dropWhile p = b := by
  induction a with
  | nil =>
    simp only [List.nil_append]
    rcases hb with h | ⟨c, bs, rfl, hc⟩
    · simp [h]
    · simp [List.takeWhile, List.dropWhile, hc]
  | cons x a ih =>
    have hx : p x = true := ha x (by simp)
    have := ih (fun y hy => ha y (List.mem_cons_of_mem _ hy))
    simp [List.takeWhile, List.dropWhile, hx, this.1, this.2]

theorem mem_takeWhile_upper (l : Str) : ∀ x ∈ l.takeWhile Char.isUpper, Char.isUpper x = true := by
  induction l with
  | nil => simp
  | cons c rest ih =>
    intro x hx
    by_cases hc : Char.isUpper c
    · rw [List.takeWhile_cons, if_pos hc] at hx
      rcases List.mem_cons.mp hx with h | h
      · subst h; exact hc
      · exact ih x h
    · rw [List.takeWhile_cons, if_neg hc] at hx
      simp at hx

theorem possessiveOk_shape {b : Str} (h : possessiveOk b = true) :
    ∃ c d rest2, b = c :: d :: rest2 ∧ c = apost ∧ (d = 's' ∨ d = 'S') := by
  cases b with
  | nil => simp [possessiveOk] at h
  | cons c b' =>
    cases b' with
    | nil => simp [possessiveOk] at h
    | cons d rest2 =>
      simp only [possessiveOk, Bool.and_eq_true, decide_eq_true_eq, Bool.or_eq_true] at h
      exact ⟨c, d, rest2, rfl, h.1.1, h.1.2⟩

theorem nameTokenMatch_shape {prev : Option Char} {l m r : Str}
    (h : nameTokenMatch prev l = some (m, r)) : nameShape m = true := by
  unfold nameTokenMatch at h
  split at h
  · rename_i hb
    split at h
    · rename_i hposs
      rw [Option.some.injEq, Prod.mk.injEq] at h
      obtain ⟨hm, _⟩ := h
      subst hm
      obtain ⟨c, d, rest2, hrest, hc, hd⟩ := possessiveOk_shape hposs
      rw [hrest]
      have htake : (c :: d :: rest2 : Str).take 2 = [c, d] := rfl
      rw [htake]
      have hc_notupper : Char.isUpper c = false := by
        rw [hc]
        decide
      have hsplit := takeWhile_all_append Char.isUpper (l.takeWhile Char.isUpper) [c, d]
        (mem_takeWhile_upper l) (Or.inr ⟨c, [d], rfl, hc_notupper⟩)
      unfold nameShape
      rw [hsplit.1, hsplit.2]
      simp only [Bool.and_eq_true, decide_eq_true_eq]
      refine ⟨hb.2, ?_⟩
      rcases hd with hd | hd <;> simp [hc, hd]
    · split at h
      · rw [Option.some.injEq, Prod.mk.injEq] at h
        obtain ⟨hm, _⟩ := h
        subst hm
        unfold nameShape
        have hall := mem_takeWhile_upper l
        have hself : (l.takeWhile Char.isUpper).takeWhile Char.isUpper =
            l.takeWhile Char.isUpper ∧
            (l.takeWhile Char.isUpper).dropWhile Char.isUpper = [] := by
          have := takeWhile_all_append Char.isUpper (l.takeWhile Char.isUpper) []
            hall (Or.inl rfl)
          simpa using this
        rw [hself.1, hself.2]
        simpa using hb.2
      · exact absurd h (by simp)
  · exact absurd h (by simp)

theorem segLoop_join (fuel : Nat) :
    ∀ (l : Str) (prev : Option Char) (pending : Str), l.length ≤ fuel →
      ((segLoop fuel prev pending l).map Prod.fst).flatten = pending ++ l := by
  induction fuel with
  | zero =>
    intro l prev pending hl
    have : l = [] := List.length_eq_zero.mp (Nat.le_zero.mp hl)
    subst this
    by_cases hp : pending = []
    · simp [segLoop, hp]
    · simp [segLoop, hp]
  | succ fuel ih =>
    intro l prev pending hl
    cases l with
    | nil =>
      by_cases hp : pending = []
      · simp [segLoop, hp]
      · simp [segLoop, hp]
    | cons c rest =>
      rw [show segLoop (fuel + 1) prev pending (c :: rest) =
          (match nameTokenMatch prev (c :: rest) with
          | some (m, r) =>
            (if pending = [] then [] else [(pending, false)]) ++
              (m, true) :: segLoop fuel m.getLast? [] r
          | none => segLoop fuel (some c) (pending ++ [c]) rest) from rfl]
      cases hm : nameTokenMatch prev (c :: rest) with
      | some p =>
        obtain ⟨m, r⟩ := p
        have hmr := nameTokenMatch_eq hm
        have hr : r.length ≤ fuel := by
          have h1 := nameTokenMatch_lt hm
          simp only [List.length_cons] at h1 hl
          omega
        have hrec := ih r m.getLast? [] hr
        by_cases hp : pending = []
        · rw [if_pos hp]
          simp only [List.nil_append, List.map_cons, List.flatten_cons]
          rw [hrec, hp]
          simp [hmr.1]
        · rw [if_neg hp]
          simp only [List.map_append, List.flatten_append, List.map_cons, List.flatten_cons,
            List.map_nil, List.flatten_nil, List.flatten]
          rw [hrec]
          simp [hmr.1, List.append_assoc]
      | none =>
        rw [ih rest (some c) (pending ++ [c])
          (by simp only [List.length_cons] at hl ⊢; omega)]
        simp

theorem segLoop_flagged (fuel : Nat) :
    ∀ (l : Str) (prev : Option Char) (pending : Str), l.length ≤ fuel →
      ∀ seg ∈ segLoop fuel prev pending l, seg.2 = true → nameShape seg.1 = true := by
  induction fuel with
  | zero =>
    intro l prev pending hl seg hseg hflag
    have : l = [] := List.length_eq_zero.mp (Nat.le_zero.mp hl)
    subst this
    by_cases hp : pending = []
    · simp [segLoop, hp] at hseg
    · simp [segLoop, hp] at hseg
      rw [hseg] at hflag
      simp at hflag
  | succ fuel ih =>
    intro l prev pending hl seg hseg hflag
    cases l with
    | nil =>
      by_cases hp : pending = []
      · simp [segLoop, hp] at hseg
      · simp [segLoop, hp] at hseg
        rw [hseg] at hflag
        simp at hflag
    | cons c rest =>
      rw [show segLoop (fuel + 1) prev pending (c :: rest) =
          (match nameTokenMatch prev (c :: rest) with
          | some (m, r) =>
            (if pending = [] then [] else [(pending, false)]) ++
              (m, true) :: segLoop fuel m.getLast? [] r
          | none => segLoop fuel (some c) (pending ++ [c]) rest) from rfl] at hseg
      cases hm : nameTokenMatch prev (c :: rest) with
      | some p =>
        obtain ⟨m, r⟩ := p
        rw [hm] at hseg
        have hr : r.length ≤ fuel := by
          have h1 := nameTokenMatch_lt hm
          simp only [List.length_cons] at h1 hl
          omega
        rcases List.mem_append.mp hseg with h1 | h1
        · by_cases hp : pending = []
          · simp [hp] at h1
          · simp [hp] at h1
            rw [h1] at hflag
            simp at hflag
        · rcases List.mem_cons.mp h1 with h2 | h2
          · subst h2
            exact nameTokenMatch_shape hm
          · exact ih r m.getLast? [] hr seg h2 hflag
      | none =>
        rw [hm] at hseg
        exact ih rest (some c) (pending ++ [c]) (by simp only [List.length_cons] at hl ⊢; omega) seg hseg hflag

theorem segLoop_all_unflagged (fuel : Nat) :
    ∀ (l : Str) (prev : Option Char) (pending : Str), l.length ≤ fuel →
      (∀ seg ∈ segLoop fuel prev pending l, seg.2 = false) →
      segLoop fuel prev pending l =
        if pending ++ l = [] then [] else [(pending ++ l, false)] := by
  induction fuel with
  | zero =>
    intro l prev pending hl _
    have : l = [] := List.length_eq_zero.mp (Nat.le_zero.mp hl)
    subst this
    by_cases hp : pending = []
    · simp [segLoop, hp]
    · simp [segLoop, hp]
  | succ fuel ih =>
    intro l prev pending hl hall
    cases l with
    | nil =>
      by_cases hp : pending = []
      · simp [segLoop, hp]
      · simp [segLoop, hp]
    | cons c rest =>
      have hstep : segLoop (fuel + 1) prev pending (c :: rest) =
          (match nameTokenMatch prev (c :: rest) with
          | some (m, r) =>
            (if pending = [] then [] else [(pending, false)]) ++
              (m, true) :: segLoop fuel m.getLast? [] r
          | none => segLoop fuel (some c) (pending ++ [c]) rest) := rfl
      cases hm : nameTokenMatch prev (c :: rest) with
      | some p =>
        obtain ⟨m, r⟩ := p
        exfalso
        have hmem : (m, true) ∈ segLoop (fuel + 1) prev pending (c :: rest) := by
          rw [hstep, hm]
          exact List.mem_append.mpr (Or.inr (by simp))
        have := hall (m, true) hmem
        simp at this
      | none =>
        rw [hstep, hm] at hall ⊢
        rw [ih rest (some c) (pending ++ [c]) (by simp only [List.length_cons] at hl ⊢; omega) hall]
        simp

theorem prevAt_none (a : Str) : prevAt none a = a.getLast? := by
  cases h : a.getLast? <;> simp [prevAt, h]

theorem prevAt_cons (prev : Option Char) (a0 : Char) (a' : Str) :
    prevAt prev (a0 :: a') = prevAt (some a0) a' := by
  cases a' with
  | nil => rfl
  | cons b a'' =>
    have h : (a0 :: b :: a'').getLast? = (b :: a'').getLast? := rfl
    rw [prevAt, prevAt, h]
    cases hg : (b :: a'').getLast? with
    | none => simp at hg
    | some x => rfl

/-- Completeness of the scan: if the whole result is unflagged, then the
name pattern matches at no position of the scanned text. -/
theorem segLoop_unflagged_no_match (fuel : Nat) :
    ∀ (l : Str) (prev : Option Char) (pending : Str), l.length ≤ fuel →
      (∀ seg ∈ segLoop fuel prev pending l, seg.2 = false) →
      ∀ a b, l = a ++ b → b ≠ [] → nameTokenMatch (prevAt prev a) b = none := by
  induction fuel with
  | zero =>
    intro l prev pending hl _ a b hab hb
    have : l = [] := List.length_eq_zero.mp (Nat.le_zero.mp hl)
    subst this
    exact absurd (List.append_eq_nil.mp hab.symm).2 hb
  | succ fuel ih =>
    intro l prev pending hl hall a b hab hb
    cases l with
    | nil => exact absurd (List.append_eq_nil.mp hab.symm).2 hb
    | cons c rest =>
      have hstep : segLoop (fuel + 1) prev pending (c :: rest) =
          (match nameTokenMatch prev (c :: rest) with
          | some (m, r) =>
            (if pending = [] then [] else [(pending, false)]) ++
              (m, true) :: segLoop fuel m.getLast? [] r
          | none => segLoop fuel (some c) (pending ++ [c]) rest) := rfl
      cases hm : nameTokenMatch prev (c :: rest) with
      | some p =>
        obtain ⟨m, r⟩ := p
        exfalso
        have hmem : (m, true) ∈ segLoop (fuel + 1) prev pending (c :: rest) := by
          rw [hstep, hm]
          exact List.mem_append.mpr (Or.inr (by simp))
        have := hall (m, true) hmem
        simp at this
      | none =>
        rw [hstep, hm] at hall
        cases a with
        | nil =>
          have hb2 : b = c :: rest := by simpa using hab.symm
          subst hb2
          exact hm
        | cons a0 a' =>
          rw [List.cons_append] at hab
          injection hab with h1 h2
          subst h1
          rw [prevAt_cons]
          exact ih rest (some c) (pending ++ [c])
            (by simp only [List.length_cons] at hl; omega) hall a' b h2 hb

/-- C7: for every input line, the name-highlight segmenter returns
segments whose concatenation equals the input line, the result is never
empty (the function is total, with no failure modes), every flagged
segment has the shape of a name token (a maximal run of two or more
uppercase letters with an optional possessive), when no segment is
flagged the result is the single non-highlighted whole-line segment, and
in that case the pattern matches at no position of the line, so the
flagged segments are exactly the pattern's matches. -/
theorem segment_line_spec (line : Str) :
    ((segment_line_for_highlighting line).map Prod.fst).flatten = line ∧
    segment_line_for_highlighting line ≠ [] ∧
    (∀ seg ∈ segment_line_for_highlighting line, seg.2 = true → nameShape seg.1 = true) ∧
    ((∀ seg ∈ segment_line_for_highlighting line, seg.2 = false) →
      segment_line_for_highlighting line = [(line, false)]) ∧
    ((∀ seg ∈ segment_line_for_highlighting line, seg.2 = false) →
      ∀ a b, line = a ++ b → b ≠ [] → nameTokenMatch a.getLast? b = none) := by
  have hjoin := segLoop_join line.length line none [] (le_refl _)
  by_cases hseg : segLoop line.length none [] line = []
  · have hline : line = [] := by
      rw [hseg] at hjoin
      simpa using hjoin.symm
    subst hline
    have h0 : segLoop 0 none [] ([] : Str) = [] := rfl
    refine ⟨?_, ?_, ?_, ?_, ?_⟩
    · simp [segment_line_for_highlighting, h0]
    · simp [segment_line_for_highlighting, h0]
    · simp [segment_line_for_highlighting, h0]
    · simp [segment_line_for_highlighting, h0]
    · intro _ a b hab hb
      exact absurd (List.append_eq_nil.mp hab.symm).2 hb
  · have hres : segment_line_for_highlighting line = segLoop line.length none [] line := by
      simp [segment_line_for_highlighting, hseg]
    refine ⟨?_, ?_, ?_, ?_, ?_⟩
    · rw [hres, hjoin]
      simp
    · rw [hres]; exact hseg
    · rw [hres]
      exact segLoop_flagged line.length line none [] (le_refl _)
    · intro hall
      rw [hres] at hall ⊢
      rw [segLoop_all_unflagged line.length line none [] (le_refl _) hall]
      have hline : line ≠ [] := by
        intro h
        apply hseg
        rw [h]
        rfl
      simp [hline]
    · intro hall a b hab hb
      rw [hres] at hall
      have := segLoop_unflagged_no_match line.length line none [] (le_refl _) hall a b hab hb
      rwa [prevAt_none] at this

theorem segment_line_spec_witness : nameShape ("VICTORIA".toList) = true :=
  (segment_line_spec ("VICTORIA x".toList)).2.2.1 ("VICTORIA".toList, true)
    (by decide) rfl

/-! ### Claim C8: gap analysis -/

/-- C8 counterexample: the event `c8event` has zero linked element
records, yet it appears in no character's
`timeline_events_without_elements` list — the per-character gap loop only
considers events whose `Characters Involved` relation contains the
character, so an event with zero characters involved is absent from the
entire unmapped-events output. -/
theorem c8_counterexample :
    elementsByEvent [] c8event.id = [] ∧
      eventsWithoutElementsFor c8char [c8event] [] = [] ∧
      unmappedEventsUnion [c8char] [c8event] [] = [] := by decide

/-- C8 (amended): a timeline event with zero linked element records
appears in the `timeline_events_without_elements` gap list of every
analyzed character involved in it; events involving none of the analyzed
characters appear in no such list. -/
theorem event_without_elements_in_gaps (c : GapCharacter)
    (events : List GapTimelineEvent) (elements : List GapElement)
    (e : GapTimelineEvent) (he : e ∈ events)
    (hc : c.id ∈ e.charactersInvolved)
    (hz : elementsByEvent elements e.id = []) :
    e ∈ eventsWithoutElementsFor c events elements := by
  unfold eventsWithoutElementsFor
  rw [List.mem_filter]
  refine ⟨List.mem_filter.mpr ⟨he, by simp [hc]⟩, by simp [hz]⟩

theorem event_without_elements_in_gaps_witness :
    (⟨"e2".toList, "Gala".toList, ["c1".toList]⟩ : GapTimelineEvent) ∈
      eventsWithoutElementsFor c8char
        [⟨"e2".toList, "Gala".toList, ["c1".toList]⟩] [] :=
  event_without_elements_in_gaps c8char
    [⟨"e2".toList, "Gala".toList, ["c1".toList]⟩] []
    ⟨"e2".toList, "Gala".toList, ["c1".toList]⟩ (by decide) (by decide) (by decide)

/-! ### Claim C9: malformed first page of the paginated fetch -/

/-- C9 counterexample: with a malformed first response (no `results`
key), the sync run does not stop: the pagination loop breaks with the
error surfaced, `fetch_all_memory_tokens` returns the empty page list,
and `main` goes on to write `tokens.json` with the empty token set
(`some []`, not an aborted run). -/
theorem c9_counterexample :
    mainRun (fun _ : Unit => (none : Option (Str × Unit)))
        [{ results := none, hasMore := false }] = some [] ∧
      (fetchLoop [({ results := none, hasMore := false } : NotionResp Unit)] []).2 = true := by
  decide

/-- C9 (amended): a malformed first page is surfaced (the loop prints the
raw payload and reports the error) and stops only the pagination loop;
the sync run itself continues, processes the empty page list, and writes
`tokens.json` from the empty result set instead of stopping. -/
theorem malformed_first_page_still_writes {α β : Type} (proc : α → Option (Str × β))
    (hm : Bool) (rest : List (NotionResp α)) :
    fetchLoop ({ results := none, hasMore := hm } :: rest) [] = ([], true) ∧
      mainRun proc ({ results := none, hasMore := hm } :: rest) = some [] := by
  constructor
  · rfl
  · rfl

theorem malformed_first_page_still_writes_witness :
    fetchLoop ({ results := none, hasMore := true } :: ([] : List (NotionResp Unit))) [] =
        ([], true) ∧
      mainRun (fun _ : Unit => (none : Option (Str × Unit)))
        ({ results := none, hasMore := true } :: []) = some [] :=
  malformed_first_page_still_writes (fun _ => none) true []

